import Mathlib

/-!
Verification of the similarity-detection engine of an assignment-submission
platform (source: `src/lib/plagiarism.ts`).

Strings are modelled as `List Char`; character offsets as `Nat`; JavaScript
floating-point scores as `ℚ` (every score here is a ratio of machine
integers, so `ℚ` is exact where the source is).  The JavaScript regular
expression classes are modelled by explicit character predicates:
`\w` is exactly `[A-Za-z0-9_]`, `\s` is the ECMAScript whitespace set
(given by code points), and `toLowerCase` is modelled by `Char.toLower`
(the ASCII case map, which is what `toLowerCase` does on the characters
`\w` can keep).  `String.prototype.split` on a one-or-more character-class
regex, `trim`, `indexOf` and `Array.prototype.sort` (stable, by the given
comparator) are each modelled by an executable function below.
-/

/-- Word characters of the JavaScript regex class `\w`: `[A-Za-z0-9_]`. -/
def isWordChar (c : Char) : Bool :=
  decide (97 ≤ c.toNat ∧ c.toNat ≤ 122)   -- a-z
  || decide (65 ≤ c.toNat ∧ c.toNat ≤ 90) -- A-Z
  || decide (48 ≤ c.toNat ∧ c.toNat ≤ 57) -- 0-9
  || decide (c.toNat = 95)                -- _

/-- Whitespace characters of the JavaScript regex class `\s` (also the set
`String.prototype.trim` strips): tab, LF, VT, FF, CR, space, NBSP, Ogham
space, the U+2000 block, LS, PS, NNBSP, MMSP, ideographic space, BOM. -/
def isSpaceChar (c : Char) : Bool :=
  decide (9 ≤ c.toNat ∧ c.toNat ≤ 13) || decide (c.toNat = 32)
  || decide (c.toNat = 160) || decide (c.toNat = 5760)
  || decide (8192 ≤ c.toNat ∧ c.toNat ≤ 8202)
  || decide (c.toNat = 8232) || decide (c.toNat = 8233)
  || decide (c.toNat = 8239) || decide (c.toNat = 8287)
  || decide (c.toNat = 12288) || decide (c.toNat = 65279)

/-- Sentence boundary characters of the regex `[.!?]+` in `splitIntoSentences`. -/
def isSentenceDelim (c : Char) : Bool :=
  decide (c = '.') || decide (c = '!') || decide (c = '?')

/-- Model of `String.prototype.split` on a one-or-more character-class regex
(`/[.!?]+/` or `/\s+/`): walk the string; outside a delimiter run accumulate
the current piece (`acc`, reversed); a delimiter flushes the piece and starts
a run; further delimiters of the run are skipped.  The end of input flushes
the current piece, so a trailing run yields a trailing empty piece, exactly
as in JavaScript (`"a.".split(/[.!?]+/) = ["a", ""]`, `"".split = [""]`). -/
def splitRunsAux (p : Char → Bool) : List Char → List Char → Bool → List (List Char)
  | [], acc, _ => [acc.reverse]
  | c :: cs, acc, inRun =>
    if p c then
      if inRun then splitRunsAux p cs [] true
      else acc.reverse :: splitRunsAux p cs [] true
    else splitRunsAux p cs (c :: acc) false

/-- `text.split(regex)` for a one-or-more character-class regex with class `p`. -/
def splitRuns (p : Char → Bool) (text : List Char) : List (List Char) :=
  splitRunsAux p text [] false

/-- Model of `String.prototype.trim`. -/
def trimWS (l : List Char) : List Char :=
  List.rdropWhile isSpaceChar (l.dropWhile isSpaceChar)

/-- Model of `.replace(/\s+/g, ' ')`: every maximal whitespace run becomes one
space.  `inRun` records whether the previous character was part of a run whose
single `' '` has already been emitted. -/
def collapseWSAux : List Char → Bool → List Char
  | [], _ => []
  | c :: cs, inRun =>
    if isSpaceChar c then
      if inRun then collapseWSAux cs true
      else ' ' :: collapseWSAux cs true
    else c :: collapseWSAux cs false

/-- `text.replace(/\s+/g, ' ')`. -/
def collapseWS (l : List Char) : List Char := collapseWSAux l false

/-- Source `normalizeText` (plagiarism.ts lines 10-16):
`text.toLowerCase().replace(/[^\w\s]/g, '').replace(/\s+/g, ' ').trim()`. -/
def normalizeText (text : List Char) : List Char :=
  trimWS (collapseWS (((text.map Char.toLower).filter
    (fun c => isWordChar c || isSpaceChar c))))

/-- Source `splitIntoSentences` (plagiarism.ts lines 18-23):
`text.split(/[.!?]+/).map(s => s.trim()).filter(s => s.length > 20)`. -/
def splitIntoSentences (text : List Char) : List (List Char) :=
  ((splitRuns isSentenceDelim text).map trimWS).filter
    (fun s => decide (20 < s.length))

/-- The deduplicated word list of one side of `calculateSimilarity`:
`new Set(text.split(/\s+/))` (only its size and membership are used). -/
def wordSet (text : List Char) : List (List Char) :=
  (splitRuns isSpaceChar text).dedup

/-- `[...set1].filter(x => set2.has(x))` of `calculateSimilarity`. -/
def similarityIntersection (text1 text2 : List Char) : List (List Char) :=
  (wordSet text1).filter (fun x => decide (x ∈ wordSet text2))

/-- `new Set([...set1, ...set2])` of `calculateSimilarity`. -/
def similarityUnion (text1 text2 : List Char) : List (List Char) :=
  (wordSet text1 ++ wordSet text2).dedup

/-- Source `calculateSimilarity` (plagiarism.ts lines 25-36):
`(intersection.size / union.size) * 100`. -/
def calculateSimilarity (text1 text2 : List Char) : ℚ :=
  (((similarityIntersection text1 text2).length : ℚ)
    / ((similarityUnion text1 text2).length : ℚ)) * 100

/-- The `MatchedSegment` interface of plagiarism.ts lines 3-8. -/
structure MatchedSegment where
  text : List Char
  startIndex : Nat
  endIndex : Nat
  matchedSubmissionId : String
deriving DecidableEq, Repr

/-- Model of `String.prototype.indexOf`: the least index at which `needle`
occurs in `hay`, `none` for the source's `-1`. -/
def jsIndexOf (needle : List Char) : List Char → Option Nat
  | [] => if needle.isEmpty then some 0 else none
  | c :: t =>
    if needle.isPrefixOf (c :: t) then some 0
    else (jsIndexOf needle t).map (fun n => n + 1)

/-- Source `findMatchingSegments` (plagiarism.ts lines 38-70).  The source
default `threshold = 70` is passed explicitly by `checkPlagiarism` below.
The nested loops push, for each original sentence and each compared sentence
whose normalized similarity reaches the threshold, a segment at the first
occurrence of the original sentence; `indexOf === -1` (the `none` case)
silently drops the match. -/
def findMatchingSegments (originalText comparedText : List Char)
    (comparedSubmissionId : String) (threshold : ℚ) : List MatchedSegment :=
  (splitIntoSentences originalText).flatMap fun sentence =>
    (splitIntoSentences comparedText).filterMap fun comparedSentence =>
      if threshold ≤ calculateSimilarity (normalizeText sentence)
          (normalizeText comparedSentence) then
        match jsIndexOf sentence originalText with
        | some startIndex =>
          some { text := sentence, startIndex := startIndex,
                 endIndex := startIndex + sentence.length,
                 matchedSubmissionId := comparedSubmissionId }
        | none => none
      else none

/-- The sort key of `sorted = [...segments].sort((a, b) => a.startIndex - b.startIndex)`. -/
def segLe (a b : MatchedSegment) : Prop := a.startIndex ≤ b.startIndex

instance : DecidableRel segLe := fun a b => Nat.decLe a.startIndex b.startIndex

instance : IsTotal MatchedSegment segLe := ⟨fun a b => Nat.le_total a.startIndex b.startIndex⟩

instance : IsTrans MatchedSegment segLe := ⟨fun _ _ _ => Nat.le_trans⟩

/-- The in-place mutation of the current merged span by an overlapping next
segment: `last.endIndex = Math.max(last.endIndex, current.endIndex)` and
`last.text = last.text + ' ' + current.text`. -/
def extendSeg (last current : MatchedSegment) : MatchedSegment :=
  { last with
    endIndex := max last.endIndex current.endIndex,
    text := last.text ++ ' ' :: current.text }

/-- The loop of `mergeOverlappingSegments` over the sorted tail: `last` is the
current final merged span (mutated in place in the source); a segment starting
at or before `last.endIndex` extends it (`extendSeg`), any other segment is
pushed and becomes the new `last`. -/
def mergeLoop : MatchedSegment → List MatchedSegment → List MatchedSegment
  | last, [] => [last]
  | last, current :: rest =>
    if current.startIndex ≤ last.endIndex then
      mergeLoop (extendSeg last current) rest
    else last :: mergeLoop current rest

/-- Source `mergeOverlappingSegments` (plagiarism.ts lines 72-91): return `[]`
on empty input, otherwise sort by `startIndex` (stable, as JavaScript `sort`)
and fold the tail into `merged = [sorted[0]]`. -/
def mergeOverlappingSegments (segments : List MatchedSegment) : List MatchedSegment :=
  match List.insertionSort segLe segments with
  | [] => []
  | first :: rest => mergeLoop first rest

/-- The `submissions` rows read by `checkPlagiarism` (`id, assignment_id,
content, status` of the schema). -/
structure SubmissionRow where
  id : String
  assignment_id : String
  content : List Char
  status : String
deriving DecidableEq

/-- A `plagiarism_reports` row as `checkPlagiarism` inserts it (the local
report objects carry the same fields minus `submission_id`). -/
structure ReportRow where
  submission_id : String
  compared_submission_id : String
  similarity_score : ℚ
  matched_content : List MatchedSegment
deriving DecidableEq

/-- The two tables `checkPlagiarism` touches, as explicit state. -/
structure Database where
  submissions : List SubmissionRow
  plagiarism_reports : List ReportRow
deriving DecidableEq

/-- The three result shapes `checkPlagiarism` returns: `{error}`,
`{overallSimilarity: 0, reports: [], message}` and
`{overallSimilarity, reports, matchedSegments}`. -/
inductive CheckResult where
  | error (msg : String)
  | noOthers (overallSimilarity : ℚ) (reports : List ReportRow) (message : String)
  | done (overallSimilarity : ℚ) (reports : List ReportRow)
      (matchedSegments : List MatchedSegment)
deriving DecidableEq

/-- Membership of an offset in a segment's half-open span. -/
def segSpan (seg : MatchedSegment) (x : Nat) : Prop :=
  seg.startIndex ≤ x ∧ x < seg.endIndex

/-- An offset covered by some segment of the list. -/
def coveredBy (segs : List MatchedSegment) (x : Nat) : Prop :=
  ∃ seg ∈ segs, segSpan seg x

/-- Model of supabase `.select().eq('id', submissionId).single()`: data only
when exactly one row matches. -/
def fetchSingle (rows : List SubmissionRow) (submissionId : String) :
    Option SubmissionRow :=
  match rows.filter (fun r => decide (r.id = submissionId)) with
  | [r] => some r
  | _ => none

/-- `Math.round(x * 100) / 100` (`round` on `ℚ` is `⌊x + 1/2⌋`, which is what
`Math.round` computes). -/
def round2 (q : ℚ) : ℚ := (round (q * 100) : ℤ) / 100

/-- One iteration of the peer loop of `checkPlagiarism`, acting on the
accumulated `(allMatchedSegments, reports)` and the report table: a peer with
empty content is skipped (`continue`), one with no matches adds nothing, and
otherwise the per-pair score is computed, a report row is both accumulated
and inserted, and the matches join the global segment list. -/
def peerStep (submissionId : String) (content : List Char)
    (acc : List MatchedSegment × List ReportRow × List ReportRow)
    (other : SubmissionRow) :
    List MatchedSegment × List ReportRow × List ReportRow :=
  if other.content = [] then acc
  else
    let found := findMatchingSegments content other.content other.id 70
    if found = [] then acc
    else
      let totalMatchedChars : Nat :=
        found.foldl (fun sum m => sum + (m.endIndex - m.startIndex)) 0
      let similarity := ((totalMatchedChars : ℚ) / (content.length : ℚ)) * 100
      let report : ReportRow :=
        { submission_id := submissionId, compared_submission_id := other.id,
          similarity_score := round2 similarity, matched_content := found }
      (acc.1 ++ found, acc.2.1 ++ [report], acc.2.2 ++ [report])

/-- Source `checkPlagiarism` (plagiarism.ts lines 93-161) as a pure function
of the database state: returns the result and the updated state (the report
table grows by the inserted rows; submissions are never written). -/
def checkPlagiarism (db : Database) (submissionId assignmentId : String) :
    CheckResult × Database :=
  match fetchSingle db.submissions submissionId with
  | none => (CheckResult.error "Submission not found or empty", db)
  | some currentSubmission =>
    if currentSubmission.content = [] then
      (CheckResult.error "Submission not found or empty", db)
    else
      let otherSubmissions := db.submissions.filter fun r =>
        decide (r.assignment_id = assignmentId) && decide (r.id ≠ submissionId)
          && decide (r.status = "submitted")
      if otherSubmissions = [] then
        (CheckResult.noOthers 0 [] "No other submissions to compare against", db)
      else
        let folded := otherSubmissions.foldl
          (peerStep submissionId currentSubmission.content)
          ([], [], db.plagiarism_reports)
        let mergedSegments := mergeOverlappingSegments folded.1
        let totalMatchedChars : Nat :=
          mergedSegments.foldl (fun sum m => sum + (m.endIndex - m.startIndex)) 0
        let overallSimilarity :=
          ((totalMatchedChars : ℚ) / (currentSubmission.content.length : ℚ)) * 100
        let sortedReports := List.insertionSort
          (fun a b => b.similarity_score ≤ a.similarity_score) folded.2.1
        (CheckResult.done (round2 overallSimilarity) sortedReports mergedSegments,
         { db with plagiarism_reports := folded.2.2 })

/-! ### Facts about the split model -/

theorem splitRunsAux_ne_nil (p : Char → Bool) :
    ∀ (l acc : List Char) (b : Bool), splitRunsAux p l acc b ≠ [] := by
  intro l
  induction l with
  | nil => intro acc b; simp [splitRunsAux]
  | cons c cs ih =>
    intro acc b
    by_cases hc : p c
    · cases b <;> simp [splitRunsAux, hc, ih]
    · simp [splitRunsAux, hc, ih]

theorem splitRuns_ne_nil (p : Char → Bool) (l : List Char) : splitRuns p l ≠ [] :=
  splitRunsAux_ne_nil p l [] false

theorem splitRunsAux_mem (p : Char → Bool) :
    ∀ (l acc : List Char) (b : Bool) (piece : List Char),
      piece ∈ splitRunsAux p l acc b →
      (∃ mid, mid <+: l ∧ piece = acc.reverse ++ mid) ∨
      (∃ mid, mid <:+: l ∧ piece = mid) := by
  intro l
  induction l with
  | nil =>
    intro acc b piece h
    simp [splitRunsAux] at h
    exact Or.inl ⟨[], List.nil_prefix, by simp [h]⟩
  | cons c cs ih =>
    intro acc b piece h
    by_cases hc : p c
    · cases b with
      | true =>
        simp only [splitRunsAux, hc, if_true] at h
        rcases ih [] true piece h with ⟨mid, hmid, heq⟩ | ⟨mid, hmid, heq⟩
        · exact Or.inr ⟨mid, (hmid.isInfix).trans (List.infix_cons_iff.mpr
            (Or.inr (List.infix_refl cs))), by simpa using heq⟩
        · exact Or.inr ⟨mid, List.infix_cons_iff.mpr (Or.inr hmid), heq⟩
      | false =>
        simp only [splitRunsAux, hc, if_true, Bool.false_eq_true, if_false,
          List.mem_cons] at h
        rcases h with rfl | h
        · exact Or.inl ⟨[], List.nil_prefix, by simp⟩
        · rcases ih [] true piece h with ⟨mid, hmid, heq⟩ | ⟨mid, hmid, heq⟩
          · exact Or.inr ⟨mid, (hmid.isInfix).trans (List.infix_cons_iff.mpr
              (Or.inr (List.infix_refl cs))), by simpa using heq⟩
          · exact Or.inr ⟨mid, List.infix_cons_iff.mpr (Or.inr hmid), heq⟩
    · simp only [splitRunsAux, hc, if_false] at h
      rcases ih (c :: acc) false piece h with ⟨mid, hmid, heq⟩ | ⟨mid, hmid, heq⟩
      · exact Or.inl ⟨c :: mid, (List.prefix_cons_inj c).mpr hmid,
          by simpa using heq⟩
      · exact Or.inr ⟨mid, List.infix_cons_iff.mpr (Or.inr hmid), heq⟩

theorem splitRuns_mem_within (p : Char → Bool) (l piece : List Char)
    (h : piece ∈ splitRuns p l) : piece <:+: l := by
  rcases splitRunsAux_mem p l [] false piece h with ⟨mid, hmid, rfl⟩ | ⟨mid, hmid, rfl⟩
  · simpa using hmid.isInfix
  · exact hmid

theorem trimWS_within (l : List Char) : trimWS l <:+: l :=
  ( List.rdropWhile_prefix isSpaceChar (l.dropWhile isSpaceChar)).isInfix.trans
    ( List.dropWhile_suffix isSpaceChar).isInfix

theorem mem_splitIntoSentences (text sentence : List Char)
    (h : sentence ∈ splitIntoSentences text) :
    sentence <:+: text ∧ 20 < sentence.length := by
  unfold splitIntoSentences at h
  rcases List.mem_filter.mp h with ⟨hmem, hlen⟩
  rcases List.mem_map.mp hmem with ⟨piece, hpiece, rfl⟩
  exact ⟨(trimWS_within piece).trans (splitRuns_mem_within _ text piece hpiece),
    by simpa using hlen⟩

/-! ### Facts about the indexOf model -/

theorem jsIndexOf_some (needle : List Char) :
    ∀ (hay : List Char) (i : Nat), jsIndexOf needle hay = some i →
      needle <+: hay.drop i ∧ ∀ j < i, ¬ needle <+: hay.drop j := by
  intro hay
  induction hay with
  | nil =>
    intro i h
    unfold jsIndexOf at h
    by_cases he : needle.isEmpty
    · simp [he] at h
      rcases List.isEmpty_iff.mp he with rfl
      simp [← h]
    · simp [he] at h
  | cons c t ih =>
    intro i h
    unfold jsIndexOf at h
    by_cases hp : needle.isPrefixOf (c :: t)
    · simp [hp] at h
      refine ⟨?_, by omega⟩
      rw [← h]
      exact List.isPrefixOf_iff_prefix.mp hp
    · simp [hp] at h
      rcases h with ⟨n, hn, rfl⟩
      rcases ih n hn with ⟨h1, h2⟩
      refine ⟨by simpa using h1, ?_⟩
      intro j hj
      match j with
      | 0 =>
        simpa using fun hc => hp (List.isPrefixOf_iff_prefix.mpr hc)
      | j + 1 =>
        simpa using h2 j (by omega)

theorem infix_jsIndexOf (needle : List Char) :
    ∀ hay : List Char, needle <:+: hay → jsIndexOf needle hay ≠ none := by
  intro hay
  induction hay with
  | nil =>
    intro h
    rcases List.infix_nil.mp h with rfl
    simp [jsIndexOf]
  | cons c t ih =>
    intro h
    unfold jsIndexOf
    by_cases hp : needle.isPrefixOf (c :: t)
    · simp [hp]
    · have : needle <:+: t := by
        rcases List.infix_cons_iff.mp h with h' | h'
        · exact absurd (List.isPrefixOf_iff_prefix.mpr h') hp
        · exact h'
      simp [hp, Option.map_eq_none]
      exact ih this

/-! ### Facts about the similarity model -/

theorem wordSet_ne_nil (t : List Char) : wordSet t ≠ [] := by
  unfold wordSet
  rw [Ne, List.dedup_eq_nil]
  exact splitRuns_ne_nil isSpaceChar t

theorem calculateSimilarity_self (t : List Char) : calculateSimilarity t t = 100 := by
  have hinter : similarityIntersection t t = wordSet t := by
    unfold similarityIntersection
    rw [List.filter_eq_self]
    intro a ha
    simpa using ha
  have hnd : (wordSet t).Nodup := by
    unfold wordSet
    exact List.nodup_dedup _
  have hlen : (similarityUnion t t).length = (wordSet t).length := by
    unfold similarityUnion
    rw [← List.card_toFinset, List.toFinset_append, Finset.union_self,
      List.card_toFinset, hnd.dedup]
  have hne : ((wordSet t).length : ℚ) ≠ 0 := by
    rw [Nat.cast_ne_zero, ← Nat.pos_iff_ne_zero, List.length_pos]
    exact wordSet_ne_nil t
  unfold calculateSimilarity
  rw [hinter, hlen, div_self hne, one_mul]

theorem calculateSimilarity_nonneg (t1 t2 : List Char) :
    0 ≤ calculateSimilarity t1 t2 := by
  unfold calculateSimilarity
  positivity

/-! ### Facts about the merge model -/

@[simp]
theorem extendSeg_startIndex (last current : MatchedSegment) :
    (extendSeg last current).startIndex = last.startIndex := rfl

@[simp]
theorem extendSeg_endIndex (last current : MatchedSegment) :
    (extendSeg last current).endIndex = max last.endIndex current.endIndex := rfl

@[simp]
theorem extendSeg_matchedSubmissionId (last current : MatchedSegment) :
    (extendSeg last current).matchedSubmissionId = last.matchedSubmissionId := rfl

theorem coveredBy_nil (x : Nat) : ¬ coveredBy [] x := by simp [coveredBy]

theorem coveredBy_cons (a : MatchedSegment) (l : List MatchedSegment) (x : Nat) :
    coveredBy (a :: l) x ↔ segSpan a x ∨ coveredBy l x := by
  simp [coveredBy]

theorem coveredBy_perm {l1 l2 : List MatchedSegment} (h : l1.Perm l2) (x : Nat) :
    coveredBy l1 x ↔ coveredBy l2 x := by
  unfold coveredBy
  constructor
  · rintro ⟨s, hs, hx⟩; exact ⟨s, h.mem_iff.mp hs, hx⟩
  · rintro ⟨s, hs, hx⟩; exact ⟨s, h.mem_iff.mpr hs, hx⟩

theorem pairwise_extend (last current : MatchedSegment) (rest : List MatchedSegment)
    (hlast : ∀ r ∈ current :: rest, segLe last r)
    (hrest : List.Pairwise segLe (current :: rest)) :
    List.Pairwise segLe (extendSeg last current :: rest) := by
  refine List.pairwise_cons.mpr ⟨?_, (List.pairwise_cons.mp hrest).2⟩
  intro r hr
  exact hlast r (List.mem_cons_of_mem current hr)

theorem mergeLoop_start_le :
    ∀ (rest : List MatchedSegment) (last : MatchedSegment),
      List.Pairwise segLe (last :: rest) →
      ∀ m ∈ mergeLoop last rest, last.startIndex ≤ m.startIndex := by
  intro rest
  induction rest with
  | nil =>
    intro last _ m hm
    simp [mergeLoop] at hm
    simp [hm]
  | cons current rest ih =>
    intro last h m hm
    rcases List.pairwise_cons.mp h with ⟨hlast, hrest⟩
    by_cases hc : current.startIndex ≤ last.endIndex
    · simp only [mergeLoop, hc, if_true] at hm
      have := ih (extendSeg last current) (pairwise_extend last current rest hlast hrest) m hm
      simpa using this
    · simp only [mergeLoop, hc, if_false, List.mem_cons] at hm
      rcases hm with rfl | hm
      · exact Nat.le_refl _
      · exact Nat.le_trans (hlast current (List.mem_cons_self current rest))
          (ih current hrest m hm)

theorem mergeLoop_sorted :
    ∀ (rest : List MatchedSegment) (last : MatchedSegment),
      List.Pairwise segLe (last :: rest) →
      List.Pairwise segLe (mergeLoop last rest) := by
  intro rest
  induction rest with
  | nil => intro last _; simp [mergeLoop]
  | cons current rest ih =>
    intro last h
    rcases List.pairwise_cons.mp h with ⟨hlast, hrest⟩
    by_cases hc : current.startIndex ≤ last.endIndex
    · simp only [mergeLoop, hc, if_true]
      exact ih _ (pairwise_extend last current rest hlast hrest)
    · simp only [mergeLoop, hc, if_false]
      refine List.pairwise_cons.mpr ⟨?_, ih current hrest⟩
      intro m hm
      exact Nat.le_trans (hlast current (List.mem_cons_self current rest))
        (mergeLoop_start_le rest current hrest m hm)

theorem mergeLoop_gap :
    ∀ (rest : List MatchedSegment) (last : MatchedSegment),
      List.Pairwise segLe (last :: rest) →
      List.Pairwise (fun a b => a.endIndex < b.startIndex) (mergeLoop last rest) := by
  intro rest
  induction rest with
  | nil => intro last _; simp [mergeLoop]
  | cons current rest ih =>
    intro last h
    rcases List.pairwise_cons.mp h with ⟨hlast, hrest⟩
    by_cases hc : current.startIndex ≤ last.endIndex
    · simp only [mergeLoop, hc, if_true]
      exact ih _ (pairwise_extend last current rest hlast hrest)
    · simp only [mergeLoop, hc, if_false]
      refine List.pairwise_cons.mpr ⟨?_, ih current hrest⟩
      intro m hm
      exact Nat.lt_of_lt_of_le (Nat.lt_of_not_le hc)
        (mergeLoop_start_le rest current hrest m hm)

theorem mergeLoop_covered :
    ∀ (rest : List MatchedSegment) (last : MatchedSegment),
      List.Pairwise segLe (last :: rest) →
      ∀ x, coveredBy (mergeLoop last rest) x ↔ (segSpan last x ∨ coveredBy rest x) := by
  intro rest
  induction rest with
  | nil =>
    intro last _ x
    simp [mergeLoop, coveredBy]
  | cons current rest ih =>
    intro last h x
    rcases List.pairwise_cons.mp h with ⟨hlast, hrest⟩
    by_cases hc : current.startIndex ≤ last.endIndex
    · simp only [mergeLoop, hc, if_true]
      rw [ih _ (pairwise_extend last current rest hlast hrest) x, coveredBy_cons]
      have hlc : last.startIndex ≤ current.startIndex :=
        hlast current (List.mem_cons_self current rest)
      have hnew : segSpan (extendSeg last current) x ↔
          (segSpan last x ∨ segSpan current x) := by
        unfold segSpan
        simp only [extendSeg_startIndex, extendSeg_endIndex]
        omega
      rw [hnew]
      tauto
    · simp only [mergeLoop, hc, if_false]
      rw [coveredBy_cons, ih current hrest x, coveredBy_cons]

theorem mergeLoop_inherit :
    ∀ (rest : List MatchedSegment) (last : MatchedSegment),
      ∀ m ∈ mergeLoop last rest, ∃ r, (r = last ∨ r ∈ rest) ∧
        m.startIndex = r.startIndex ∧
        m.matchedSubmissionId = r.matchedSubmissionId ∧
        r.endIndex ≤ m.endIndex := by
  intro rest
  induction rest with
  | nil =>
    intro last m hm
    simp [mergeLoop] at hm
    exact ⟨last, Or.inl rfl, by simp [hm]⟩
  | cons current rest ih =>
    intro last m hm
    by_cases hc : current.startIndex ≤ last.endIndex
    · simp only [mergeLoop, hc, if_true] at hm
      rcases ih _ m hm with ⟨r, hr | hr, h1, h2, h3⟩
      · subst hr
        refine ⟨last, Or.inl rfl, by simpa using h1, by simpa using h2, ?_⟩
        exact Nat.le_trans (Nat.le_trans (Nat.le_max_left _ _) (Nat.le_refl _))
          (by simpa using h3)
      · exact ⟨r, Or.inr (List.mem_cons_of_mem current hr), h1, h2, h3⟩
    · simp only [mergeLoop, hc, if_false, List.mem_cons] at hm
      rcases hm with rfl | hm
      · exact ⟨m, Or.inl rfl, rfl, rfl, Nat.le_refl _⟩
      · rcases ih current m hm with ⟨r, hr | hr, h1, h2, h3⟩
        · subst hr
          exact ⟨r, Or.inr (List.mem_cons_self r rest), h1, h2, h3⟩
        · exact ⟨r, Or.inr (List.mem_cons_of_mem current hr), h1, h2, h3⟩

theorem mergeLoop_contain :
    ∀ (rest : List MatchedSegment) (last : MatchedSegment),
      List.Pairwise segLe (last :: rest) →
      ∀ s, (s = last ∨ s ∈ rest) →
        ∃ m ∈ mergeLoop last rest,
          m.startIndex ≤ s.startIndex ∧ s.endIndex ≤ m.endIndex := by
  intro rest
  induction rest with
  | nil =>
    intro last _ s hs
    simp at hs
    exact ⟨last, by simp [mergeLoop], by simp [hs]⟩
  | cons current rest ih =>
    intro last h s hs
    rcases List.pairwise_cons.mp h with ⟨hlast, hrest⟩
    by_cases hc : current.startIndex ≤ last.endIndex
    · simp only [mergeLoop, hc, if_true]
      rcases hs with rfl | hs
      · rcases ih _ (pairwise_extend s current rest hlast hrest) _ (Or.inl rfl)
          with ⟨m, hm, h1, h2⟩
        refine ⟨m, hm, by simpa using h1, ?_⟩
        exact Nat.le_trans (Nat.le_max_left _ _) (by simpa using h2)
      · rcases List.mem_cons.mp hs with rfl | hs
        · rcases ih _ (pairwise_extend last s rest hlast hrest) _ (Or.inl rfl)
            with ⟨m, hm, h1, h2⟩
          refine ⟨m, hm, ?_, ?_⟩
          · exact Nat.le_trans (by simpa using h1)
              (hlast s (List.mem_cons_self s rest))
          · exact Nat.le_trans (Nat.le_max_right _ _) (by simpa using h2)
        · exact ih _ (pairwise_extend last current rest hlast hrest) s (Or.inr hs)
    · simp only [mergeLoop, hc, if_false]
      rcases hs with rfl | hs
      · exact ⟨s, List.mem_cons_self _ _, Nat.le_refl _, Nat.le_refl _⟩
      · rcases ih current hrest s (List.mem_cons.mp hs) with ⟨m, hm, h1, h2⟩
        exact ⟨m, List.mem_cons_of_mem _ hm, h1, h2⟩

theorem mergeLoop_pos :
    ∀ (rest : List MatchedSegment) (last : MatchedSegment),
      last.startIndex < last.endIndex →
      (∀ r ∈ rest, r.startIndex < r.endIndex) →
      ∀ m ∈ mergeLoop last rest, m.startIndex < m.endIndex := by
  intro rest
  induction rest with
  | nil =>
    intro last hlast _ m hm
    simp [mergeLoop] at hm
    simpa [hm] using hlast
  | cons current rest ih =>
    intro last hlast hrest m hm
    by_cases hc : current.startIndex ≤ last.endIndex
    · simp only [mergeLoop, hc, if_true] at hm
      refine ih _ ?_ (fun r hr => hrest r (List.mem_cons_of_mem current hr)) m hm
      simp only [extendSeg_startIndex, extendSeg_endIndex]
      omega
    · simp only [mergeLoop, hc, if_false, List.mem_cons] at hm
      rcases hm with rfl | hm
      · exact hlast
      · exact ih current (hrest current (List.mem_cons_self current rest))
          (fun r hr => hrest r (List.mem_cons_of_mem current hr)) m hm

theorem mergeOverlappingSegments_nil : mergeOverlappingSegments [] = [] := rfl

theorem merge_sorted (segs : List MatchedSegment) :
    List.Pairwise segLe (mergeOverlappingSegments segs) := by
  unfold mergeOverlappingSegments
  have hsorted := List.sorted_insertionSort segLe segs
  cases hins : List.insertionSort segLe segs with
  | nil => simp
  | cons first rest =>
    rw [hins] at hsorted
    exact mergeLoop_sorted rest first hsorted

theorem merge_gap (segs : List MatchedSegment) :
    List.Pairwise (fun a b => a.endIndex < b.startIndex)
      (mergeOverlappingSegments segs) := by
  unfold mergeOverlappingSegments
  have hsorted := List.sorted_insertionSort segLe segs
  cases hins : List.insertionSort segLe segs with
  | nil => simp
  | cons first rest =>
    rw [hins] at hsorted
    exact mergeLoop_gap rest first hsorted

theorem merge_covered (segs : List MatchedSegment) (x : Nat) :
    coveredBy (mergeOverlappingSegments segs) x ↔ coveredBy segs x := by
  unfold mergeOverlappingSegments
  have hsorted := List.sorted_insertionSort segLe segs
  have hperm := List.perm_insertionSort segLe segs
  cases hins : List.insertionSort segLe segs with
  | nil =>
    rw [hins] at hperm
    rw [hperm.symm.eq_nil]
  | cons first rest =>
    rw [hins] at hsorted hperm
    rw [mergeLoop_covered rest first hsorted x, ← coveredBy_cons,
      coveredBy_perm hperm x]

theorem merge_inherit (segs : List MatchedSegment) :
    ∀ m ∈ mergeOverlappingSegments segs, ∃ seg ∈ segs,
      seg.startIndex = m.startIndex ∧
      seg.matchedSubmissionId = m.matchedSubmissionId ∧
      seg.endIndex ≤ m.endIndex := by
  unfold mergeOverlappingSegments
  have hperm := List.perm_insertionSort segLe segs
  cases hins : List.insertionSort segLe segs with
  | nil => simp
  | cons first rest =>
    rw [hins] at hperm
    intro m hm
    rcases mergeLoop_inherit rest first m hm with ⟨r, hr, h1, h2, h3⟩
    have hrmem : r ∈ first :: rest := by
      rcases hr with rfl | hr
      · exact List.mem_cons_self _ _
      · exact List.mem_cons_of_mem _ hr
    exact ⟨r, hperm.mem_iff.mp hrmem, h1.symm, h2.symm, h3⟩

theorem merge_contain (segs : List MatchedSegment) :
    ∀ s ∈ segs, ∃ m ∈ mergeOverlappingSegments segs,
      m.startIndex ≤ s.startIndex ∧ s.endIndex ≤ m.endIndex := by
  unfold mergeOverlappingSegments
  have hsorted := List.sorted_insertionSort segLe segs
  have hperm := List.perm_insertionSort segLe segs
  cases hins : List.insertionSort segLe segs with
  | nil =>
    rw [hins] at hperm
    rw [hperm.symm.eq_nil]
    simp
  | cons first rest =>
    rw [hins] at hsorted hperm
    intro s hs
    exact mergeLoop_contain rest first hsorted s
      (List.mem_cons.mp (hperm.mem_iff.mpr hs))

theorem merge_pos (segs : List MatchedSegment)
    (h : ∀ s ∈ segs, s.startIndex < s.endIndex) :
    ∀ m ∈ mergeOverlappingSegments segs, m.startIndex < m.endIndex := by
  unfold mergeOverlappingSegments
  have hperm := List.perm_insertionSort segLe segs
  cases hins : List.insertionSort segLe segs with
  | nil => simp
  | cons first rest =>
    rw [hins] at hperm
    exact mergeLoop_pos rest first
      (h first (hperm.mem_iff.mp (List.mem_cons_self _ _)))
      (fun r hr => h r (hperm.mem_iff.mp (List.mem_cons_of_mem _ hr)))

/-! ### Claims about the segment merger -/

/-- C3: `merge([]) == []`, and for every input list of segments the output of
`mergeOverlappingSegments` is sorted by `startIndex`, its half-open spans are
pairwise non-overlapping, and the union of its `[startIndex, endIndex)` spans
equals the union of the input segments' spans. -/
theorem mergeOverlappingSegments_spec :
    mergeOverlappingSegments [] = [] ∧
    ∀ segs : List MatchedSegment,
      List.Pairwise segLe (mergeOverlappingSegments segs) ∧
      List.Pairwise (fun a b => ∀ x : Nat, ¬(segSpan a x ∧ segSpan b x))
        (mergeOverlappingSegments segs) ∧
      ∀ x : Nat, coveredBy (mergeOverlappingSegments segs) x ↔ coveredBy segs x := by
  refine ⟨mergeOverlappingSegments_nil,
    fun segs => ⟨merge_sorted segs, ?_, merge_covered segs⟩⟩
  refine (merge_gap segs).imp ?_
  intro a b hab x hx
  unfold segSpan at hx
  omega

/-- C7 as stated is false: two segments each fully contained within the single
span `[0, 10)` whose merge has two spans (so it is not one span equal to
`[0, 10)`). -/
theorem merge_single_span_counterexample :
    (∀ seg ∈ [(⟨['a'], 0, 1, "A"⟩ : MatchedSegment), ⟨['b'], 5, 6, "B"⟩],
      0 ≤ seg.startIndex ∧ seg.endIndex ≤ 10) ∧
    (mergeOverlappingSegments
      [(⟨['a'], 0, 1, "A"⟩ : MatchedSegment), ⟨['b'], 5, 6, "B"⟩]).length = 2 := by
  exact ⟨by decide, rfl⟩

/-- C7 amended: for every non-empty list of segments, each with
`startIndex < endIndex`, whose spans' union is exactly the interval `[s, e)`,
merging yields exactly one span whose `[startIndex, endIndex)` equals
`[s, e)`.  (Containment in `[s, e)` alone is not enough: the segments must
also cover the interval, as the counterexample shows.) -/
theorem merge_single_interval (segs : List MatchedSegment) (s e : Nat)
    (hne : segs ≠ [])
    (hpos : ∀ seg ∈ segs, seg.startIndex < seg.endIndex)
    (hcov : ∀ x : Nat, coveredBy segs x ↔ (s ≤ x ∧ x < e)) :
    ∃ m, mergeOverlappingSegments segs = [m] ∧
      m.startIndex = s ∧ m.endIndex = e := by
  have hcovm : ∀ x, coveredBy (mergeOverlappingSegments segs) x ↔ (s ≤ x ∧ x < e) :=
    fun x => (merge_covered segs x).trans (hcov x)
  have hpos' := merge_pos segs hpos
  have hgap := merge_gap segs
  obtain ⟨seg0, hseg0⟩ := List.exists_mem_of_ne_nil segs hne
  have hs0 : s ≤ seg0.startIndex ∧ seg0.startIndex < e :=
    (hcov seg0.startIndex).mp ⟨seg0, hseg0, Nat.le_refl _, hpos seg0 hseg0⟩
  cases hout : mergeOverlappingSegments segs with
  | nil =>
    exfalso
    have hcontra := (hcovm seg0.startIndex).mpr hs0
    rw [hout] at hcontra
    exact coveredBy_nil _ hcontra
  | cons m1 tail =>
    cases tail with
    | nil =>
      have hm1 : m1 ∈ mergeOverlappingSegments segs := by
        rw [hout]; exact List.mem_cons_self _ _
      have hm1pos : m1.startIndex < m1.endIndex := hpos' m1 hm1
      have h1 : ∀ x, (m1.startIndex ≤ x ∧ x < m1.endIndex) ↔ (s ≤ x ∧ x < e) := by
        intro x
        have hx := hcovm x
        rw [hout] at hx
        simpa [coveredBy, segSpan] using hx
      have k1 := (h1 m1.startIndex).mp ⟨Nat.le_refl _, hm1pos⟩
      have k2 := (h1 (m1.endIndex - 1)).mp ⟨by omega, by omega⟩
      have hse : s < e := by omega
      have k3 := (h1 (e - 1)).mpr ⟨by omega, by omega⟩
      have k4 := (h1 s).mpr ⟨Nat.le_refl _, hse⟩
      exact ⟨m1, rfl, by omega, by omega⟩
    | cons m2 tail2 =>
      exfalso
      have hm1 : m1 ∈ mergeOverlappingSegments segs := by
        rw [hout]; exact List.mem_cons_self _ _
      have hm2 : m2 ∈ mergeOverlappingSegments segs := by
        rw [hout]; exact List.mem_cons_of_mem _ (List.mem_cons_self _ _)
      have p1 := hpos' m1 hm1
      have p2 := hpos' m2 hm2
      rw [hout] at hgap
      have hgapAll := (List.pairwise_cons.mp hgap).1
      have hgap12 : m1.endIndex < m2.startIndex :=
        hgapAll m2 (List.mem_cons_self _ _)
      have q1 : s ≤ m1.startIndex ∧ m1.startIndex < e := by
        refine (hcovm m1.startIndex).mp ?_
        rw [hout]
        exact ⟨m1, List.mem_cons_self _ _, Nat.le_refl _, p1⟩
      have q2 : s ≤ m2.startIndex ∧ m2.startIndex < e := by
        refine (hcovm m2.startIndex).mp ?_
        rw [hout]
        exact ⟨m2, List.mem_cons_of_mem _ (List.mem_cons_self _ _),
          Nat.le_refl _, p2⟩
      have hcovx := (hcovm m1.endIndex).mpr (by omega)
      rw [hout] at hcovx
      rcases hcovx with ⟨m, hm, hsp⟩
      rcases List.mem_cons.mp hm with rfl | hm
      · unfold segSpan at hsp
        omega
      · have := hgapAll m hm
        unfold segSpan at hsp
        omega

/-- C10: every span returned by the segment merger takes its `startIndex` and
`matchedSubmissionId` jointly from a single input segment that lies inside the
merged span (so its `startIndex` is the span's own, minimal, `startIndex`),
and every input segment is absorbed into some merged span that starts at or
before it and ends at or after it — so the carried `matchedSubmissionId` is
that of a segment with the smallest `startIndex` among those coalesced into
the span, even when the span covers matches from several peers. -/
theorem merge_carries_min_start_id :
    ∀ segs : List MatchedSegment,
      (∀ m ∈ mergeOverlappingSegments segs, ∃ seg ∈ segs,
        seg.startIndex = m.startIndex ∧
        seg.matchedSubmissionId = m.matchedSubmissionId ∧
        seg.endIndex ≤ m.endIndex) ∧
      (∀ seg ∈ segs, ∃ m ∈ mergeOverlappingSegments segs,
        m.startIndex ≤ seg.startIndex ∧ seg.endIndex ≤ m.endIndex) :=
  fun segs => ⟨merge_inherit segs, merge_contain segs⟩

/-- Witness for the amended C7 at a concrete input: two overlapping segments
covering exactly `[0, 3)` merge to the single span `[0, 3)`. -/
theorem merge_single_interval_witness :
    ∃ m, mergeOverlappingSegments
        [(⟨['x'], 0, 2, "A"⟩ : MatchedSegment), ⟨['y'], 1, 3, "B"⟩] = [m] ∧
      m.startIndex = 0 ∧ m.endIndex = 3 := by
  apply merge_single_interval
  · decide
  · decide
  · intro x
    simp [coveredBy, segSpan]
    omega

/-! ### Claims about the similarity scorer and the segmenter -/

/-- C8: for every text `a` — including texts whose normalization is empty —
`similarity(normalize(a), normalize(a)) = 100`: the two word lists coincide,
so intersection and union have the same size, and the union is never empty
because splitting always yields at least one token. -/
theorem calculateSimilarity_normalize_self (a : List Char) :
    calculateSimilarity (normalizeText a) (normalizeText a) = 100 :=
  calculateSimilarity_self (normalizeText a)

/-- C1 as stated is false: on two empty strings the scorer returns `100`, not
`0` — JavaScript `"".split(/\s+/)` is `[""]`, so each side's word set is the
singleton of the empty token and intersection equals union. -/
theorem calculateSimilarity_empty_counterexample :
    calculateSimilarity [] [] ≠ 0 := by
  rw [calculateSimilarity_self]
  norm_num

/-- C1 amended: the scorer is total and never divides by zero, because the
union word set always holds at least one token (splitting any string — the
empty one included — yields at least one piece); on two empty strings both
sides' word set is the singleton empty token and the result is `100`. -/
theorem calculateSimilarity_no_div_by_zero :
    (∀ text1 text2 : List Char, 0 < (similarityUnion text1 text2).length) ∧
    calculateSimilarity [] [] = 100 := by
  constructor
  · intro t1 t2
    rw [List.length_pos]
    unfold similarityUnion
    rw [Ne, List.dedup_eq_nil, List.append_eq_nil]
    rintro ⟨h1, _⟩
    exact wordSet_ne_nil t1 h1
  · exact calculateSimilarity_self []

/-- C2 as stated is false at a text whose single trimmed piece has length
exactly 20: the source filter is `s.length > 20`, so the piece is discarded
although its length is not less than 20 (the claim says such a piece is
kept). -/
theorem splitIntoSentences_len20_counterexample :
    trimWS (List.replicate 20 'a') = List.replicate 20 'a' ∧
    splitRuns isSentenceDelim (List.replicate 20 'a') = [List.replicate 20 'a'] ∧
    splitIntoSentences (List.replicate 20 'a') = [] := by
  refine ⟨by decide, by decide, by decide⟩

/-- C2 amended: the segmenter returns, in appearance order, the trimmed pieces
of splitting on runs of `.`, `!`, `?`, discarding exactly those trimmed pieces
whose length is at most 20 — so a trimmed piece of length exactly 20 is
discarded, and only pieces strictly longer than 20 characters are kept. -/
theorem splitIntoSentences_spec (text : List Char) :
    splitIntoSentences text =
      ((splitRuns isSentenceDelim text).map trimWS).filter
        (fun s => decide (¬ s.length ≤ 20)) := by
  unfold splitIntoSentences
  refine List.filter_congr ?_
  intro s _
  refine decide_eq_decide.mpr ?_
  omega

/-! ### Claims about the segment matcher -/

theorem mem_findMatchingSegments (ot ct : List Char) (cid : String) (th : ℚ)
    (seg : MatchedSegment) (h : seg ∈ findMatchingSegments ot ct cid th) :
    ∃ sentence ∈ splitIntoSentences ot, ∃ i, jsIndexOf sentence ot = some i ∧
      seg = ⟨sentence, i, i + sentence.length, cid⟩ := by
  unfold findMatchingSegments at h
  rcases List.mem_flatMap.mp h with ⟨sentence, hsent, hseg⟩
  rcases List.mem_filterMap.mp hseg with ⟨cs, _, hf⟩
  by_cases hth : th ≤ calculateSimilarity (normalizeText sentence) (normalizeText cs)
  · rw [if_pos hth] at hf
    cases hidx : jsIndexOf sentence ot with
    | none => rw [hidx] at hf; simp at hf
    | some i =>
      rw [hidx] at hf
      simp at hf
      exact ⟨sentence, hsent, i, hidx, hf.symm⟩
  · rw [if_neg hth] at hf
    simp at hf

/-- C4: for every pair of texts, peer id and threshold, every segment returned
by `findMatchingSegments` satisfies `startIndex < endIndex ≤ length of the
original text` (`0 ≤ startIndex` holds by the `Nat` model of offsets), and the
defensive branch that silently drops a match when the sentence substring
cannot be located is unreachable: every sentence produced from the original
text does occur in it, so `jsIndexOf` is never `none` there. -/
theorem findMatchingSegments_bounds (ot ct : List Char) (cid : String) (th : ℚ) :
    (∀ seg ∈ findMatchingSegments ot ct cid th,
      seg.startIndex < seg.endIndex ∧ seg.endIndex ≤ ot.length) ∧
    (∀ sentence ∈ splitIntoSentences ot, jsIndexOf sentence ot ≠ none) := by
  constructor
  · intro seg hseg
    rcases mem_findMatchingSegments ot ct cid th seg hseg
      with ⟨sentence, hsent, i, hidx, rfl⟩
    rcases mem_splitIntoSentences ot sentence hsent with ⟨hinf, hlen⟩
    rcases jsIndexOf_some sentence ot i hidx with ⟨hpre, hmin⟩
    have hd : sentence.length ≤ ot.length - i := by
      have hle := hpre.length_le
      simpa using hle
    have hi : i ≤ ot.length := by
      by_contra hgt
      push_neg at hgt
      have hdrop : ot.drop i = [] := List.drop_eq_nil_of_le (Nat.le_of_lt hgt)
      rw [hdrop] at hpre
      have hempty := List.prefix_nil.mp hpre
      rw [hempty] at hlen
      simp at hlen
    constructor
    · show i < i + sentence.length
      omega
    · show i + sentence.length ≤ ot.length
      omega
  · intro sentence hsent
    exact infix_jsIndexOf sentence ot (mem_splitIntoSentences ot sentence hsent).1

/-- C6: for every returned segment, its `text` equals the slice of the
original text at `[startIndex, endIndex)`, and `startIndex` is the index of
the first occurrence of that text in the original text — a forward substring
search finds no earlier occurrence, even when the text occurs more than
once. -/
theorem findMatchingSegments_first_occurrence (ot ct : List Char)
    (cid : String) (th : ℚ) :
    ∀ seg ∈ findMatchingSegments ot ct cid th,
      seg.text = (ot.drop seg.startIndex).take (seg.endIndex - seg.startIndex) ∧
      jsIndexOf seg.text ot = some seg.startIndex ∧
      ∀ j < seg.startIndex, ¬ seg.text <+: ot.drop j := by
  intro seg hseg
  rcases mem_findMatchingSegments ot ct cid th seg hseg
    with ⟨sentence, _, i, hidx, rfl⟩
  rcases jsIndexOf_some sentence ot i hidx with ⟨hpre, hmin⟩
  refine ⟨?_, ?_, ?_⟩
  · have htake := List.prefix_iff_eq_take.mp hpre
    simpa using htake
  · simpa using hidx
  · intro j hj
    exact hmin j (by simpa using hj)

theorem splitIntoSentences_sample :
    splitIntoSentences (String.toList "abcdefghijklmnopqrstu") =
      [String.toList "abcdefghijklmnopqrstu"] := by decide

theorem findMatchingSegments_sample :
    findMatchingSegments (String.toList "abcdefghijklmnopqrstu")
        (String.toList "abcdefghijklmnopqrstu") "peer" 0 =
      [⟨String.toList "abcdefghijklmnopqrstu", 0, 21, "peer"⟩] := by
  unfold findMatchingSegments
  rw [splitIntoSentences_sample]
  simp only [List.flatMap_cons, List.flatMap_nil, List.filterMap_cons,
    List.filterMap_nil, List.append_nil]
  rw [if_pos (calculateSimilarity_nonneg _ _)]
  have hidx : jsIndexOf (String.toList "abcdefghijklmnopqrstu")
      (String.toList "abcdefghijklmnopqrstu") = some 0 := by decide
  rw [hidx]
  decide

/-- Witness for C4 at a concrete input: the single self-match of a 21-character
one-sentence text satisfies the bounds, and its sentence is locatable. -/
theorem findMatchingSegments_bounds_witness :
    ((⟨String.toList "abcdefghijklmnopqrstu", 0, 21, "peer"⟩ :
        MatchedSegment).startIndex <
      (⟨String.toList "abcdefghijklmnopqrstu", 0, 21, "peer"⟩ :
        MatchedSegment).endIndex ∧
     (⟨String.toList "abcdefghijklmnopqrstu", 0, 21, "peer"⟩ :
        MatchedSegment).endIndex ≤ (String.toList "abcdefghijklmnopqrstu").length) ∧
    jsIndexOf (String.toList "abcdefghijklmnopqrstu")
      (String.toList "abcdefghijklmnopqrstu") ≠ none := by
  have h := findMatchingSegments_bounds (String.toList "abcdefghijklmnopqrstu")
    (String.toList "abcdefghijklmnopqrstu") "peer" 0
  refine ⟨h.1 _ ?_, h.2 (String.toList "abcdefghijklmnopqrstu") ?_⟩
  · rw [findMatchingSegments_sample]
    exact List.mem_cons_self _ _
  · rw [splitIntoSentences_sample]
    exact List.mem_cons_self _ _

/-- Witness for C6 at the same concrete input. -/
theorem findMatchingSegments_first_occurrence_witness :
    (⟨String.toList "abcdefghijklmnopqrstu", 0, 21, "peer"⟩ :
        MatchedSegment).text =
      ((String.toList "abcdefghijklmnopqrstu").drop 0).take (21 - 0) ∧
    jsIndexOf (⟨String.toList "abcdefghijklmnopqrstu", 0, 21, "peer"⟩ :
        MatchedSegment).text (String.toList "abcdefghijklmnopqrstu") = some 0 ∧
    ∀ j < 0, ¬ (⟨String.toList "abcdefghijklmnopqrstu", 0, 21, "peer"⟩ :
        MatchedSegment).text <+: (String.toList "abcdefghijklmnopqrstu").drop j := by
  have h := findMatchingSegments_first_occurrence
    (String.toList "abcdefghijklmnopqrstu")
    (String.toList "abcdefghijklmnopqrstu") "peer" 0
    ⟨String.toList "abcdefghijklmnopqrstu", 0, 21, "peer"⟩
    (by rw [findMatchingSegments_sample]; exact List.mem_cons_self _ _)
  exact h

/-! ### Claims about the orchestrator -/

/-- C5: when the checked submission does not exist (no unique matching row) or
its content is the empty string, `checkPlagiarism` returns the not-found error
and the database is unchanged: no plagiarism report rows are persisted and no
comparison is performed. -/
theorem checkPlagiarism_notFound (db : Database) (submissionId assignmentId : String)
    (h : fetchSingle db.submissions submissionId = none ∨
      ∃ r, fetchSingle db.submissions submissionId = some r ∧ r.content = []) :
    (checkPlagiarism db submissionId assignmentId).1 =
      CheckResult.error "Submission not found or empty" ∧
    (checkPlagiarism db submissionId assignmentId).2 = db := by
  unfold checkPlagiarism
  rcases h with h | ⟨r, hr, hc⟩
  · rw [h]
    exact ⟨rfl, rfl⟩
  · rw [hr]
    simp [hc]

/-- Witness for C5: an empty database has no such submission, so the check
errors and the state is returned unchanged. -/
theorem checkPlagiarism_notFound_witness :
    (checkPlagiarism ⟨[], []⟩ "s1" "a1").1 =
      CheckResult.error "Submission not found or empty" ∧
    (checkPlagiarism ⟨[], []⟩ "s1" "a1").2 = (⟨[], []⟩ : Database) :=
  checkPlagiarism_notFound ⟨[], []⟩ "s1" "a1" (Or.inl rfl)

/-! ### Facts about the normalizer -/

theorem toLower_idem (c : Char) : Char.toLower (Char.toLower c) = Char.toLower c := by
  by_cases h : c.toNat ≥ 65 ∧ c.toNat ≤ 90
  · have h1 : Char.toLower c = Char.ofNat (c.toNat + 32) := by
      simp [Char.toLower, h]
    rw [h1]
    obtain ⟨h65, h90⟩ := h
    set n := c.toNat with hn
    interval_cases n <;> decide
  · have h1 : Char.toLower c = c := by simp [Char.toLower, h]
    rw [h1, h1]

theorem isWordChar_not_space (c : Char) (h : isWordChar c = true) :
    isSpaceChar c = false := by
  cases hs : isSpaceChar c with
  | false => rfl
  | true =>
    unfold isWordChar at h
    unfold isSpaceChar at hs
    simp only [Bool.or_eq_true, decide_eq_true_eq] at h hs
    omega

theorem head?_of_starts {α : Type} {l1 l2 : List α} (h : l1 <+: l2) {c : α}
    (hc : l1.head? = some c) : l2.head? = some c := by
  rcases h with ⟨t, rfl⟩
  cases l1 with
  | nil => simp at hc
  | cons a as => simpa using hc

theorem head?_dropWhile_false (p : Char → Bool) :
    ∀ l : List Char, ∀ c, (List.dropWhile p l).head? = some c → p c = false := by
  intro l
  induction l with
  | nil => intro c hc; simp at hc
  | cons a as ih =>
    intro c hc
    by_cases hp : p a
    · rw [List.dropWhile_cons, if_pos hp] at hc
      exact ih c hc
    · rw [List.dropWhile_cons, if_neg hp] at hc
      simp at hc
      rw [← hc]
      cases hpa : p a with
      | false => rfl
      | true => exact absurd hpa hp

theorem trimWS_head (l : List Char) :
    ∀ c, (trimWS l).head? = some c → isSpaceChar c = false := by
  intro c hc
  unfold trimWS at hc
  exact head?_dropWhile_false isSpaceChar l c
    (head?_of_starts ( List.rdropWhile_prefix _ _) hc)

theorem trimWS_getLast (l : List Char) :
    ∀ c, (trimWS l).getLast? = some c → isSpaceChar c = false := by
  intro c hc
  unfold trimWS at hc
  rw [List.rdropWhile, List.getLast?_reverse] at hc
  exact head?_dropWhile_false isSpaceChar _ c hc

theorem collapseWSAux_mem :
    ∀ (l : List Char) (b : Bool) (c : Char), c ∈ collapseWSAux l b →
      c = ' ' ∨ (c ∈ l ∧ isSpaceChar c = false) := by
  intro l
  induction l with
  | nil => intro b c hc; simp [collapseWSAux] at hc
  | cons a as ih =>
    intro b c hc
    by_cases hs : isSpaceChar a
    · cases b with
      | true =>
        simp only [collapseWSAux, hs, if_true] at hc
        rcases ih true c hc with h | ⟨hmem, hns⟩
        · exact Or.inl h
        · exact Or.inr ⟨List.mem_cons_of_mem a hmem, hns⟩
      | false =>
        simp [collapseWSAux, hs] at hc
        rcases hc with rfl | hc
        · exact Or.inl rfl
        · rcases ih true c hc with h | ⟨hmem, hns⟩
          · exact Or.inl h
          · exact Or.inr ⟨List.mem_cons_of_mem a hmem, hns⟩
    · have hrw : collapseWSAux (a :: as) b = a :: collapseWSAux as false := by
        cases b <;> simp [collapseWSAux, hs]
      rw [hrw, List.mem_cons] at hc
      rcases hc with rfl | hc
      · refine Or.inr ⟨List.mem_cons_self _ _, ?_⟩
        cases hpa : isSpaceChar c with
        | false => rfl
        | true => exact absurd hpa hs
      · rcases ih false c hc with h | ⟨hmem, hns⟩
        · exact Or.inl h
        · exact Or.inr ⟨List.mem_cons_of_mem a hmem, hns⟩

theorem collapseWSAux_head_true :
    ∀ (l : List Char) (c : Char), (collapseWSAux l true).head? = some c →
      isSpaceChar c = false := by
  intro l
  induction l with
  | nil => intro c hc; simp [collapseWSAux] at hc
  | cons a as ih =>
    intro c hc
    by_cases hs : isSpaceChar a
    · simp only [collapseWSAux, hs, if_true] at hc
      exact ih c hc
    · have hrw : collapseWSAux (a :: as) true = a :: collapseWSAux as false := by
        simp [collapseWSAux, hs]
      rw [hrw] at hc
      simp at hc
      rw [← hc]
      cases hpa : isSpaceChar a with
      | false => rfl
      | true => exact absurd hpa hs

theorem collapseWSAux_chain :
    ∀ (l : List Char) (b : Bool),
      List.Chain' (fun x y => isSpaceChar x = true → isSpaceChar y = false)
        (collapseWSAux l b) := by
  intro l
  induction l with
  | nil => intro b; simp [collapseWSAux]
  | cons a as ih =>
    intro b
    by_cases hs : isSpaceChar a
    · cases b with
      | true =>
        simp only [collapseWSAux, hs, if_true]
        exact ih true
      | false =>
        have hrw : collapseWSAux (a :: as) false = ' ' :: collapseWSAux as true := by
          simp [collapseWSAux, hs]
        rw [hrw]
        refine List.chain'_cons'.mpr ⟨?_, ih true⟩
        intro y hy _
        exact collapseWSAux_head_true as y hy
    · have hrw : collapseWSAux (a :: as) b = a :: collapseWSAux as false := by
        cases b <;> simp [collapseWSAux, hs]
      rw [hrw]
      refine List.chain'_cons'.mpr ⟨?_, ih false⟩
      intro y _ hcontra
      exact absurd hcontra (by simp [hs])

theorem map_toLower_fixed :
    ∀ l : List Char, (∀ c ∈ l, Char.toLower c = c) → l.map Char.toLower = l := by
  intro l
  induction l with
  | nil => intro _; rfl
  | cons a as ih =>
    intro h
    rw [List.map_cons, h a (List.mem_cons_self a as),
      ih (fun c hc => h c (List.mem_cons_of_mem a hc))]

theorem dropWhile_eq_self_of_head (p : Char → Bool) (l : List Char)
    (h : ∀ c, l.head? = some c → p c = false) : List.dropWhile p l = l := by
  cases l with
  | nil => rfl
  | cons a as => rw [List.dropWhile_cons, if_neg (by simp [h a rfl])]

theorem rdropWhile_eq_self_of_getLast (p : Char → Bool) (l : List Char)
    (h : ∀ c, l.getLast? = some c → p c = false) : List.rdropWhile p l = l := by
  have h2 : List.dropWhile p l.reverse = l.reverse :=
    dropWhile_eq_self_of_head p l.reverse
      (fun c hc => h c (by rwa [List.head?_reverse] at hc))
  rw [List.rdropWhile, h2, List.reverse_reverse]

theorem collapseWSAux_fixed :
    ∀ l : List Char, (∀ c ∈ l, isSpaceChar c = true → c = ' ') →
      List.Chain' (fun x y => ¬(x = ' ' ∧ y = ' ')) l →
      collapseWSAux l false = l ∧
      ((∀ c, l.head? = some c → isSpaceChar c = false) →
        collapseWSAux l true = l) := by
  intro l
  induction l with
  | nil => intro _ _; exact ⟨rfl, fun _ => rfl⟩
  | cons a as ih =>
    intro hsp hch
    have ihs := ih (fun c hc hs => hsp c (List.mem_cons_of_mem a hc) hs) hch.tail
    by_cases hs : isSpaceChar a
    · have ha : a = ' ' := hsp a (List.mem_cons_self a as) hs
      have hhead : ∀ c, as.head? = some c → isSpaceChar c = false := by
        intro c hcas
        cases hsc : isSpaceChar c with
        | false => rfl
        | true =>
          have hc' : c = ' ' :=
            hsp c (List.mem_cons_of_mem a (List.mem_of_mem_head? hcas)) hsc
          exact absurd ⟨ha, hc'⟩ ((List.chain'_cons'.mp hch).1 c hcas)
      constructor
      · have hrw : collapseWSAux (a :: as) false = ' ' :: collapseWSAux as true := by
          simp [collapseWSAux, hs]
        rw [hrw, ihs.2 hhead, ha]
      · intro hcond
        exact absurd hs (by simp [hcond a rfl])
    · have hrw : ∀ b, collapseWSAux (a :: as) b = a :: collapseWSAux as false := by
        intro b
        cases b <;> simp [collapseWSAux, hs]
      constructor
      · rw [hrw false, ihs.1]
      · intro _
        rw [hrw true, ihs.1]

theorem normalizeText_shape (t : List Char) :
    (∀ c ∈ normalizeText t, (isWordChar c = true ∧ Char.toLower c = c) ∨ c = ' ') ∧
    List.Chain' (fun x y => ¬(x = ' ' ∧ y = ' ')) (normalizeText t) ∧
    (∀ c, (normalizeText t).head? = some c → isSpaceChar c = false) ∧
    (∀ c, (normalizeText t).getLast? = some c → isSpaceChar c = false) := by
  refine ⟨?_, ?_, ?_, ?_⟩
  · intro c hc
    unfold normalizeText at hc
    have hc2 := (List.IsInfix.subset (trimWS_within _)) hc
    rcases collapseWSAux_mem _ false c hc2 with rfl | ⟨hcf, hns⟩
    · exact Or.inr rfl
    · left
      have hkeep := (List.mem_filter.mp hcf).2
      have hcmap := (List.mem_filter.mp hcf).1
      rcases List.mem_map.mp hcmap with ⟨a, _, rfl⟩
      refine ⟨?_, toLower_idem a⟩
      simpa [hns] using hkeep
  · unfold normalizeText
    refine List.Chain'.infix (List.Chain'.imp ?_ (collapseWSAux_chain _ false))
      (trimWS_within _)
    intro x y hxy
    rintro ⟨rfl, rfl⟩
    exact absurd (hxy (by decide)) (by decide)
  · intro c hc
    unfold normalizeText at hc
    exact trimWS_head _ c hc
  · intro c hc
    unfold normalizeText at hc
    exact trimWS_getLast _ c hc

theorem normalizeText_fixed (l : List Char)
    (hmem : ∀ c ∈ l, (isWordChar c = true ∧ Char.toLower c = c) ∨ c = ' ')
    (hch : List.Chain' (fun x y => ¬(x = ' ' ∧ y = ' ')) l)
    (hhead : ∀ c, l.head? = some c → isSpaceChar c = false)
    (hlast : ∀ c, l.getLast? = some c → isSpaceChar c = false) :
    normalizeText l = l := by
  unfold normalizeText
  have hmap : l.map Char.toLower = l := by
    refine map_toLower_fixed l ?_
    intro c hc
    rcases hmem c hc with ⟨_, hfix⟩ | rfl
    · exact hfix
    · decide
  rw [hmap]
  have hfilter : l.filter (fun c => isWordChar c || isSpaceChar c) = l := by
    rw [List.filter_eq_self]
    intro a ha
    rcases hmem a ha with ⟨hw, _⟩ | rfl
    · simp [hw]
    · decide
  rw [hfilter]
  have hsp : ∀ c ∈ l, isSpaceChar c = true → c = ' ' := by
    intro c hc hs
    rcases hmem c hc with ⟨hw, _⟩ | rfl
    · rw [isWordChar_not_space c hw] at hs
      exact absurd hs (by simp)
    · rfl
  have hcoll : collapseWS l = l := (collapseWSAux_fixed l hsp hch).1
  rw [hcoll]
  unfold trimWS
  rw [dropWhile_eq_self_of_head isSpaceChar l hhead]
  exact rdropWhile_eq_self_of_getLast isSpaceChar l hlast

/-- C9: the text normalizer is idempotent —
`normalize(normalize(t)) = normalize(t)` for every input — and its output
contains only lowercase word characters (word characters fixed by `toLower`)
and spaces, with never two adjacent spaces and no leading or trailing
space. -/
theorem normalizeText_idempotent_shape (t : List Char) :
    normalizeText (normalizeText t) = normalizeText t ∧
    (∀ c ∈ normalizeText t, (isWordChar c = true ∧ Char.toLower c = c) ∨ c = ' ') ∧
    List.Chain' (fun x y => ¬(x = ' ' ∧ y = ' ')) (normalizeText t) ∧
    (normalizeText t).head? ≠ some ' ' ∧
    (normalizeText t).getLast? ≠ some ' ' := by
  obtain ⟨h1, h2, h3, h4⟩ := normalizeText_shape t
  refine ⟨normalizeText_fixed _ h1 h2 h3 h4, h1, h2, ?_, ?_⟩
  · intro hc
    exact absurd (h3 ' ' hc) (by decide)
  · intro hc
    exact absurd (h4 ' ' hc) (by decide)
